import Mathlib

/-!
Verification of the `NetworkManager` aggregator from
`src/Web-Interface/Backend/network_manager.py`.

Python dictionaries (insertion-ordered, unique keys) are embedded as
association lists `List (String × β)`; the helper functions below mirror
dict lookup (`d.get(k, dflt)`), assignment (`d[k] = v`: replace in place
if present, append at end if new), membership (`k in d`) and
`d.setdefault(k, []).append(c)`.

Timestamps (`time.time()`) are embedded as rationals, passed explicitly
to the operations that read the clock.  A node's report payload (an
arbitrary JSON-like dict) is embedded as `Report`, recording for each of
the three keys the code reads (`routing_table`, `neighbors`, `ip`)
whether the key is present and with which value; `data.get(key, dflt)`
becomes `Option.getD`.
-/

namespace NetMgr

/-- `d.get(k, dflt)`: value at the first occurrence of key `k`, else `dflt`. -/
def dictGet {β : Type} : List (String × β) → String → β → β
  | [], _, dflt => dflt
  | (k', v) :: rest, k, dflt => if k' = k then v else dictGet rest k dflt

/-- `d.get(k)` as an `Option`: value at the first occurrence of `k`, else `none`. -/
def dictFind {β : Type} : List (String × β) → String → Option β
  | [], _ => none
  | (k', v) :: rest, k => if k' = k then some v else dictFind rest k

/-- `d[k] = v`: replace the first occurrence of `k` in place, else append at the end. -/
def dictSet {β : Type} : List (String × β) → String → β → List (String × β)
  | [], k, v => [(k, v)]
  | (k', v') :: rest, k, v =>
      if k' = k then (k, v) :: rest else (k', v') :: dictSet rest k v

/-- `k in d`. -/
def dictContains {β : Type} : List (String × β) → String → Bool
  | [], _ => false
  | (k', _) :: rest, k => k' = k || dictContains rest k

/-- `d.setdefault(k, []).append(c)`: append `c` to the list at the first
occurrence of `k`, creating the entry `(k, [c])` at the end if `k` is absent. -/
def dictPush : List (String × List String) → String → String → List (String × List String)
  | [], k, c => [(k, [c])]
  | (k', v') :: rest, k, c =>
      if k' = k then (k', v' ++ [c]) :: rest else (k', v') :: dictPush rest k c

/-- The keys of a dict, in insertion order. -/
def dkeys {β : Type} (d : List (String × β)) : List String := d.map Prod.fst

/-- A node's report payload, as far as `update_node` inspects it: each of the
three keys the code reads is either absent (`none`) or present with a value.
Route metadata is opaque to the system and embedded as string pairs. -/
structure Report where
  routing_table? : Option (List (String × String))
  neighbors? : Option (List String)
  ip? : Option String
deriving DecidableEq, Repr

/-- The per-node record `update_node` stores:
`{last_seen, routing_table, neighbors, ip, details}`. -/
structure NodeRecord where
  last_seen : ℚ
  routing_table : List (String × String)
  neighbors : List String
  ip : String
  details : Report
deriving DecidableEq, Repr

/-- The mutable state of a `NetworkManager` instance: the node store
`self.nodes` and the command queues `self.pending_commands`. -/
structure NMState where
  nodes : List (String × NodeRecord)
  pending_commands : List (String × List String)
deriving DecidableEq, Repr

/-- The state of a freshly constructed `NetworkManager`. -/
def initState : NMState := ⟨[], []⟩

/-- The record `update_node` builds from a report at time `now`:
missing keys default to empty containers. -/
def mkRecord (now : ℚ) (data : Report) : NodeRecord :=
  { last_seen := now
  , routing_table := data.routing_table?.getD []
  , neighbors := data.neighbors?.getD []
  , ip := data.ip?.getD ""
  , details := data }

/-- `NetworkManager.update_node`: store a fresh record for `node_id` built
from `data` at time `now`, and create an empty command queue for `node_id`
if none exists. -/
def update_node (s : NMState) (now : ℚ) (node_id : String) (data : Report) : NMState :=
  { nodes := dictSet s.nodes node_id (mkRecord now data)
  , pending_commands :=
      if dictContains s.pending_commands node_id then s.pending_commands
      else s.pending_commands ++ [(node_id, [])] }

/-- `NetworkManager.get_commands`: read the pending commands for `node_id`
(empty if unknown), reset the queue to empty, and return what was read. -/
def get_commands (s : NMState) (node_id : String) : List String × NMState :=
  (dictGet s.pending_commands node_id [],
   { s with pending_commands := dictSet s.pending_commands node_id [] })

/-- `NetworkManager.queue_command`: on the `"BROADCAST"` sentinel, append
`command` to the queue of every node id currently in the store (in store
order); otherwise append to that one queue, creating it if absent. -/
def queue_command (s : NMState) (node_id command : String) : NMState :=
  if node_id = "BROADCAST" then
    { s with pending_commands :=
        s.nodes.foldl (fun pc p => dictPush pc p.1 command) s.pending_commands }
  else
    { s with pending_commands := dictPush s.pending_commands node_id command }

/-- A graph node entry of the topology payload: `{id, name, val, color}`. -/
structure GNode where
  id : String
  name : String
  val : Nat
  color : String
deriving DecidableEq, Repr

/-- A link entry of the topology payload: `{source, target, color}`. -/
structure GLink where
  source : String
  target : String
  color : String
deriving DecidableEq, Repr

/-- The graph node entry emitted for a known node: weight and color depend on
whether `current_time - last_seen < 5.0`. -/
def knownEntry (t : ℚ) (nid : String) (info : NodeRecord) : GNode :=
  if t - info.last_seen < 5 then ⟨nid, nid, 10, "#4CAF50"⟩
  else ⟨nid, nid, 5, "#9E9E9E"⟩

/-- The ghost node entry emitted for an unknown neighbor `g`:
`{id: g, name: f"{g} (?)", val: 5, color: "#FFC107"}`. -/
def ghostEntry (g : String) : GNode := ⟨g, g ++ " (?)", 5, "#FFC107"⟩

/-- The link entry emitted for the pair `(nid, neighbor)`. -/
def linkEntry (nid nb : String) : GLink := ⟨nid, nb, "#FFF"⟩

/-- The inner loop of `get_topology` over one node's neighbor list, threading
the `known_ids` set and the accumulated `graph_nodes` / `graph_links`:
an unknown, non-`'LOCAL'` neighbor is added to `known_ids` and emitted as a
ghost node; every non-`'LOCAL'` neighbor emits one link. -/
def neighborLoop (nid : String) :
    List String → List String → List GNode → List GLink →
    List String × List GNode × List GLink
  | [], known, gn, gl => (known, gn, gl)
  | nb :: rest, known, gn, gl =>
      let st :=
        if nb ∉ known ∧ nb ≠ "LOCAL" then (nb :: known, gn ++ [ghostEntry nb])
        else (known, gn)
      let gl' := if nb ≠ "LOCAL" then gl ++ [linkEntry nid nb] else gl
      neighborLoop nid rest st.1 st.2 gl'

/-- The outer loop of `get_topology` over the node store: emit the known-node
entry, then run the neighbor loop. -/
def nodeLoop (t : ℚ) :
    List (String × NodeRecord) → List String → List GNode → List GLink →
    List GNode × List GLink
  | [], _, gn, gl => (gn, gl)
  | (nid, info) :: rest, known, gn, gl =>
      let st := neighborLoop nid info.neighbors known (gn ++ [knownEntry t nid info]) gl
      nodeLoop t rest st.1 st.2.1 st.2.2

/-- `NetworkManager.get_topology`: build the graph from the store at reference
time `t` (captured once per build), starting from `known_ids = set(self.nodes.keys())`.
The state is returned unchanged, mirroring that the method only reads it. -/
def get_topology (s : NMState) (t : ℚ) : (List GNode × List GLink) × NMState :=
  (nodeLoop t s.nodes (dkeys s.nodes) [] [], s)

/-- `NetworkManager.get_node_details`: `self.nodes.get(node_id, {})` — the
stored record, or `none` for the empty dict when the node is unknown.  The
state is returned unchanged, mirroring that the method only reads it. -/
def get_node_details (s : NMState) (node_id : String) : Option NodeRecord × NMState :=
  (dictFind s.nodes node_id, s)

/-- The pending queue of `node_id` as `get_commands` would read it. -/
def pendingOf (s : NMState) (node_id : String) : List String :=
  dictGet s.pending_commands node_id []

/-!
Specification-level recursions used to characterise the topology build:
`ghostsOf known nbs` is the sequence of ghost ids emitted while scanning the
neighbor list `nbs` starting from the membership set `known`, and
`knownAfter known nbs` is the membership set afterwards; `topoNodes` and
`topoLinks` give the node and link sequences of a whole build.  They are
related to `nodeLoop` / `neighborLoop` by the decomposition lemmas below.
-/

/-- Ghost ids emitted while scanning `nbs` with membership set `known`. -/
def ghostsOf (known : List String) : List String → List String
  | [] => []
  | nb :: rest =>
      if nb ∉ known ∧ nb ≠ "LOCAL" then nb :: ghostsOf (nb :: known) rest
      else ghostsOf known rest

/-- The membership set after scanning `nbs` from `known`. -/
def knownAfter (known : List String) : List String → List String
  | [] => known
  | nb :: rest =>
      if nb ∉ known ∧ nb ≠ "LOCAL" then knownAfter (nb :: known) rest
      else knownAfter known rest

/-- The graph node sequence of a build over `nodes` with membership set `known`. -/
def topoNodes (t : ℚ) (known : List String) : List (String × NodeRecord) → List GNode
  | [] => []
  | (nid, info) :: rest =>
      knownEntry t nid info ::
        ((ghostsOf known info.neighbors).map ghostEntry
          ++ topoNodes t (knownAfter known info.neighbors) rest)

/-- The link sequence of a build over `nodes`. -/
def topoLinks : List (String × NodeRecord) → List GLink
  | [] => []
  | (nid, info) :: rest =>
      (info.neighbors.filter (fun nb => nb != "LOCAL")).map (linkEntry nid) ++ topoLinks rest

/-- The sublist of graph node entries carrying id `g`. -/
def idEntries (gn : List GNode) (g : String) : List GNode :=
  gn.filter (fun n => n.id == g)

/-- A Python value, as far as equality comparisons of the payloads handled
here need: strings, numbers, lists and string-keyed dicts. -/
inductive PyVal : Type where
  | pstr : String → PyVal
  | pnum : ℚ → PyVal
  | plist : List PyVal → PyVal
  | pdict : List (String × PyVal) → PyVal

/-- The Python dict a `Report` stands for: exactly the keys marked present. -/
def Report.toPy (r : Report) : PyVal :=
  PyVal.pdict
    ((match r.routing_table? with
      | some rt => [("routing_table", PyVal.pdict (rt.map fun p => (p.1, PyVal.pstr p.2)))]
      | none => []) ++
     (match r.neighbors? with
      | some ns => [("neighbors", PyVal.plist (ns.map PyVal.pstr))]
      | none => []) ++
     (match r.ip? with
      | some ip => [("ip", PyVal.pstr ip)]
      | none => []))

/-- The Python dict a stored `NodeRecord` stands for. -/
def NodeRecord.toPy (r : NodeRecord) : PyVal :=
  PyVal.pdict
    [("last_seen", PyVal.pnum r.last_seen),
     ("routing_table", PyVal.pdict (r.routing_table.map fun p => (p.1, PyVal.pstr p.2))),
     ("neighbors", PyVal.plist (r.neighbors.map PyVal.pstr)),
     ("ip", PyVal.pstr r.ip),
     ("details", r.details.toPy)]

/-- The Python value returned by `get_node_details`: the record's dict, or
the empty dict `{}` when the node is unknown. -/
def detailsPy (o : Option NodeRecord) : PyVal :=
  match o with
  | some r => r.toPy
  | none => PyVal.pdict []

/-- The empty report payload `{}`. -/
def reportEmpty : Report := ⟨none, none, none⟩

/-- A report whose neighbor list is `["B"]`. -/
def reportNbrB : Report := ⟨none, some ["B"], none⟩

/-- A report whose neighbor list is `["LOCAL", "B"]`. -/
def reportNbrLocalB : Report := ⟨none, some ["LOCAL", "B"], none⟩

/-- A state where only `"A"` has reported, listing the unknown neighbor `"B"`. -/
def stateA : NMState := update_node initState 0 "A" reportNbrB

/-- A state where `"A"` and `"B"` have reported. -/
def stateAB : NMState := update_node (update_node initState 0 "A" reportEmpty) 0 "B" reportEmpty

/-- A state where `"A"` reported at time `1/5` and `"B"` at time `0`, so that at
reference time `51/10` node `"A"` is `4.9` seconds old and `"B"` is `5.1`. -/
def stateTimes : NMState :=
  update_node (update_node initState (1/5) "A" reportEmpty) 0 "B" reportEmpty

/-- A state where only `"A"` has reported, listing `"LOCAL"` and `"B"`. -/
def stateLocal : NMState := update_node initState 0 "A" reportNbrLocalB

/-- A state where a node literally named `"BROADCAST"` has reported. -/
def stateBC : NMState := update_node initState 0 "BROADCAST" reportEmpty

/-! Lemmas about the dict embedding. -/

theorem dictGet_dictSet_self {β : Type} (d : List (String × β)) (k : String) (v dflt : β) :
    dictGet (dictSet d k v) k dflt = v := by
  induction d with
  | nil => simp [dictSet, dictGet]
  | cons p rest ih =>
      obtain ⟨k', v'⟩ := p
      by_cases h : k' = k
      · simp [dictSet, dictGet, h]
      · simp [dictSet, dictGet, h, ih]

theorem dictGet_dictSet_ne {β : Type} (d : List (String × β)) (k k' : String) (v dflt : β)
    (h : k' ≠ k) : dictGet (dictSet d k' v) k dflt = dictGet d k dflt := by
  induction d with
  | nil => simp [dictSet, dictGet, h]
  | cons p rest ih =>
      obtain ⟨k₀, v₀⟩ := p
      by_cases h0 : k₀ = k'
      · simp [dictSet, dictGet, h0, h]
      · simp [dictSet, dictGet, h0, ih]

theorem dictGet_dictPush_self (d : List (String × List String)) (k c : String) :
    dictGet (dictPush d k c) k [] = dictGet d k [] ++ [c] := by
  induction d with
  | nil => simp [dictPush, dictGet]
  | cons p rest ih =>
      obtain ⟨k', v'⟩ := p
      by_cases h : k' = k
      · simp [dictPush, dictGet, h]
      · simp [dictPush, dictGet, h, ih]

theorem dictGet_dictPush_ne (d : List (String × List String)) (k k' c : String)
    (dflt : List String) (h : k' ≠ k) :
    dictGet (dictPush d k' c) k dflt = dictGet d k dflt := by
  induction d with
  | nil => simp [dictPush, dictGet, h]
  | cons p rest ih =>
      obtain ⟨k₀, v₀⟩ := p
      by_cases h0 : k₀ = k'
      · simp [dictPush, dictGet, h0, h]
      · simp [dictPush, dictGet, h0, ih]

theorem dictGet_of_dictContains_false {β : Type} (d : List (String × β)) (k : String)
    (dflt : β) (h : dictContains d k = false) : dictGet d k dflt = dflt := by
  induction d with
  | nil => simp [dictGet]
  | cons p rest ih =>
      obtain ⟨k', v'⟩ := p
      simp [dictContains] at h
      simp [dictGet, h.1, ih h.2]

theorem dictGet_append_single {β : Type} (d : List (String × β)) (k y : String) (v dflt : β) :
    dictGet (d ++ [(k, v)]) y dflt =
      if dictContains d y then dictGet d y dflt else if k = y then v else dflt := by
  induction d with
  | nil => simp [dictGet, dictContains]
  | cons p rest ih =>
      obtain ⟨k', v'⟩ := p
      by_cases h : k' = y
      · simp [dictGet, dictContains, h]
      · simp [dictGet, dictContains, h, ih]

theorem dictContains_append_single_self {β : Type} (d : List (String × β)) (k : String)
    (v : β) : dictContains (d ++ [(k, v)]) k = true := by
  induction d with
  | nil => simp [dictContains]
  | cons p rest ih =>
      obtain ⟨k', v'⟩ := p
      by_cases h : k' = k <;> simp [dictContains, h, ih]

theorem dictFind_dictSet_self {β : Type} (d : List (String × β)) (k : String) (v : β) :
    dictFind (dictSet d k v) k = some v := by
  induction d with
  | nil => simp [dictSet, dictFind]
  | cons p rest ih =>
      obtain ⟨k', v'⟩ := p
      by_cases h : k' = k
      · simp [dictSet, dictFind, h]
      · simp [dictSet, dictFind, h, ih]

theorem dictFind_of_not_mem {β : Type} (d : List (String × β)) (k : String)
    (h : k ∉ dkeys d) : dictFind d k = none := by
  induction d with
  | nil => simp [dictFind]
  | cons p rest ih =>
      obtain ⟨k', v'⟩ := p
      simp [dkeys] at h
      simp [dictFind, ih, h.1, h.2, dkeys]
      intro h'
      exact absurd h'.symm h.1

theorem dictSet_dictSet_self {β : Type} (d : List (String × β)) (k : String) (v₁ v₂ : β) :
    dictSet (dictSet d k v₁) k v₂ = dictSet d k v₂ := by
  induction d with
  | nil => simp [dictSet]
  | cons p rest ih =>
      obtain ⟨k', v'⟩ := p
      by_cases h : k' = k
      · simp [dictSet, h]
      · simp [dictSet, h, ih]

/-! Lemmas about the command queues. -/

theorem foldl_dictPush_not_mem (l : List (String × NodeRecord))
    (pc : List (String × List String)) (c nid : String) (dflt : List String)
    (h : nid ∉ l.map Prod.fst) :
    dictGet (l.foldl (fun pc p => dictPush pc p.1 c) pc) nid dflt = dictGet pc nid dflt := by
  induction l generalizing pc with
  | nil => simp
  | cons p rest ih =>
      simp only [List.map_cons, List.mem_cons, not_or] at h
      simp only [List.foldl_cons]
      rw [ih _ h.2, dictGet_dictPush_ne _ _ _ _ _ (Ne.symm h.1)]

theorem foldl_dictPush_mem (l : List (String × NodeRecord))
    (pc : List (String × List String)) (c nid : String)
    (hnd : (l.map Prod.fst).Nodup) (h : nid ∈ l.map Prod.fst) :
    dictGet (l.foldl (fun pc p => dictPush pc p.1 c) pc) nid [] =
      dictGet pc nid [] ++ [c] := by
  induction l generalizing pc with
  | nil => simp at h
  | cons p rest ih =>
      simp only [List.map_cons, List.nodup_cons] at hnd
      simp only [List.map_cons, List.mem_cons] at h
      simp only [List.foldl_cons]
      rcases h with h | h
      · rw [foldl_dictPush_not_mem _ _ _ _ _ (h ▸ hnd.1), h, dictGet_dictPush_self]
      · rw [ih _ hnd.2 h]
        by_cases he : p.1 = nid
        · exact absurd (he ▸ h) hnd.1
        · rw [dictGet_dictPush_ne _ _ _ _ _ he]

theorem pendingOf_update_node (s : NMState) (t : ℚ) (X Y : String) (R : Report) :
    pendingOf (update_node s t X R) Y = pendingOf s Y := by
  unfold pendingOf update_node
  by_cases h : dictContains s.pending_commands X
  · simp [h]
  · simp only [h, Bool.false_eq_true, if_false]
    rw [dictGet_append_single]
    by_cases hY : dictContains s.pending_commands Y
    · simp [hY]
    · simp only [hY, Bool.false_eq_true, if_false]
      rw [dictGet_of_dictContains_false _ _ _ (by simpa using hY)]
      by_cases hXY : X = Y <;> simp [hXY]

theorem pendingOf_queue_command_self (s : NMState) (X c : String) (h : X ≠ "BROADCAST") :
    pendingOf (queue_command s X c) X = pendingOf s X ++ [c] := by
  unfold pendingOf queue_command
  simp only [h, if_false]
  exact dictGet_dictPush_self _ _ _

theorem pendingOf_foldl_enqueue (cs : List String) (s : NMState) (A : String)
    (h : A ≠ "BROADCAST") :
    pendingOf (cs.foldl (fun u c => queue_command u A c) s) A = pendingOf s A ++ cs := by
  induction cs generalizing s with
  | nil => simp
  | cons c rest ih =>
      simp only [List.foldl_cons]
      rw [ih, pendingOf_queue_command_self _ _ _ h, List.append_assoc]
      rfl

theorem pendingOf_get_commands_snd (s : NMState) (A : String) :
    pendingOf (get_commands s A).2 A = [] := by
  unfold pendingOf get_commands
  exact dictGet_dictSet_self _ _ _ _

/-! Lemmas about the topology build. -/

theorem neighborLoop_eq (nid : String) (nbs : List String) :
    ∀ (known : List String) (gn : List GNode) (gl : List GLink),
    neighborLoop nid nbs known gn gl =
      (knownAfter known nbs,
       gn ++ (ghostsOf known nbs).map ghostEntry,
       gl ++ (nbs.filter (fun nb => nb != "LOCAL")).map (linkEntry nid)) := by
  induction nbs with
  | nil => intro known gn gl; simp [neighborLoop, knownAfter, ghostsOf]
  | cons nb rest ih =>
      intro known gn gl
      by_cases hl : nb = "LOCAL"
      · subst hl
        simp [neighborLoop, knownAfter, ghostsOf, ih, List.filter_cons]
      · by_cases hm : nb ∈ known
        · have hc : ¬(nb ∉ known ∧ nb ≠ "LOCAL") := by simp [hm]
          simp [neighborLoop, knownAfter, ghostsOf, hc, hm, hl, ih, List.filter_cons]
        · have hc : nb ∉ known ∧ nb ≠ "LOCAL" := ⟨hm, hl⟩
          simp [neighborLoop, knownAfter, ghostsOf, hc, hm, hl, ih, List.filter_cons]

theorem nodeLoop_eq (t : ℚ) (nodes : List (String × NodeRecord)) :
    ∀ (known : List String) (gn : List GNode) (gl : List GLink),
    nodeLoop t nodes known gn gl = (gn ++ topoNodes t known nodes, gl ++ topoLinks nodes) := by
  induction nodes with
  | nil => intro known gn gl; simp [nodeLoop, topoNodes, topoLinks]
  | cons p rest ih =>
      intro known gn gl
      obtain ⟨nid, info⟩ := p
      simp [nodeLoop, topoNodes, topoLinks, neighborLoop_eq, ih]

theorem get_topology_eq (s : NMState) (t : ℚ) :
    get_topology s t = ((topoNodes t (dkeys s.nodes) s.nodes, topoLinks s.nodes), s) := by
  simp [get_topology, nodeLoop_eq]

theorem ghostsOf_cons_pos (known : List String) (nb : String) (rest : List String)
    (hc : nb ∉ known ∧ nb ≠ "LOCAL") :
    ghostsOf known (nb :: rest) = nb :: ghostsOf (nb :: known) rest := by
  simp only [ghostsOf]; rw [if_pos hc]

theorem ghostsOf_cons_neg (known : List String) (nb : String) (rest : List String)
    (hc : ¬(nb ∉ known ∧ nb ≠ "LOCAL")) :
    ghostsOf known (nb :: rest) = ghostsOf known rest := by
  simp only [ghostsOf]; rw [if_neg hc]

theorem knownAfter_cons_pos (known : List String) (nb : String) (rest : List String)
    (hc : nb ∉ known ∧ nb ≠ "LOCAL") :
    knownAfter known (nb :: rest) = knownAfter (nb :: known) rest := by
  simp only [knownAfter]; rw [if_pos hc]

theorem knownAfter_cons_neg (known : List String) (nb : String) (rest : List String)
    (hc : ¬(nb ∉ known ∧ nb ≠ "LOCAL")) :
    knownAfter known (nb :: rest) = knownAfter known rest := by
  simp only [knownAfter]; rw [if_neg hc]

theorem mem_ghostsOf (g : String) (nbs : List String) : ∀ known : List String,
    g ∈ ghostsOf known nbs ↔ (g ∉ known ∧ g ≠ "LOCAL" ∧ g ∈ nbs) := by
  induction nbs with
  | nil => intro known; simp [ghostsOf]
  | cons nb rest ih =>
      intro known
      by_cases hc : nb ∉ known ∧ nb ≠ "LOCAL"
      · rw [ghostsOf_cons_pos known nb rest hc]
        simp only [List.mem_cons, ih, not_or]
        by_cases hg : g = nb
        · subst hg; simp [hc.1, hc.2]
        · simp only [hg, false_or]
          tauto
      · rw [ghostsOf_cons_neg known nb rest hc, ih]
        simp only [List.mem_cons]
        have hb : g = nb → ¬(g ∉ known ∧ g ≠ "LOCAL") := fun h => h ▸ hc
        tauto

theorem mem_knownAfter (g : String) (nbs : List String) : ∀ known : List String,
    g ∈ knownAfter known nbs ↔ (g ∈ known ∨ (g ∈ nbs ∧ g ≠ "LOCAL")) := by
  induction nbs with
  | nil => intro known; simp [knownAfter]
  | cons nb rest ih =>
      intro known
      by_cases hc : nb ∉ known ∧ nb ≠ "LOCAL"
      · rw [knownAfter_cons_pos known nb rest hc]
        simp only [ih, List.mem_cons]
        have hb : g = nb → g ≠ "LOCAL" := fun h => h ▸ hc.2
        tauto
      · rw [knownAfter_cons_neg known nb rest hc, ih]
        simp only [List.mem_cons]
        have hb : g = nb → (g ∈ known ∨ g = "LOCAL") := by
          rintro rfl
          rcases not_and_or.mp hc with h' | h'
          · exact Or.inl (not_not.mp h')
          · exact Or.inr (not_not.mp h')
        tauto

theorem knownEntry_id (t : ℚ) (nid : String) (info : NodeRecord) :
    (knownEntry t nid info).id = nid := by
  unfold knownEntry; split <;> rfl

theorem filter_beq_nil (l : List String) (g : String) (h : g ∉ l) :
    l.filter (fun x => x == g) = [] := by
  induction l with
  | nil => rfl
  | cons x rest ih =>
      simp only [List.mem_cons, not_or] at h
      simp [List.filter_cons, Ne.symm h.1, ih h.2]

theorem idEntries_append (a b : List GNode) (g : String) :
    idEntries (a ++ b) g = idEntries a g ++ idEntries b g := by
  simp [idEntries, List.filter_append]

theorem idEntries_map_ghost (l : List String) (g : String) :
    idEntries (l.map ghostEntry) g = (l.filter (fun x => x == g)).map ghostEntry := by
  induction l with
  | nil => rfl
  | cons x rest ih =>
      by_cases h : x = g
      · simp [idEntries, ghostEntry, List.filter_cons, h] at ih ⊢
        exact ih
      · simp [idEntries, ghostEntry, List.filter_cons, h] at ih ⊢
        exact ih

theorem filterEq_ghostsOf (g : String) (nbs : List String) (hL : g ≠ "LOCAL") :
    ∀ known : List String, g ∉ known →
    (ghostsOf known nbs).filter (fun x => x == g) = if g ∈ nbs then [g] else [] := by
  induction nbs with
  | nil => intro known _; simp [ghostsOf]
  | cons nb rest ih =>
      intro known hk
      by_cases hc : nb ∉ known ∧ nb ≠ "LOCAL"
      · rw [ghostsOf_cons_pos known nb rest hc]
        by_cases hg : g = nb
        · subst hg
          have hin : g ∉ ghostsOf (g :: known) rest := by
            rw [mem_ghostsOf]
            rintro ⟨hgk, -, -⟩
            exact hgk (List.mem_cons_self _ _)
          simp [List.filter_cons, filter_beq_nil _ _ hin]
        · have hgk : g ∉ nb :: known := by simp [hg, hk]
          rw [List.filter_cons, if_neg (by simp [Ne.symm hg]), ih _ hgk]
          simp [List.mem_cons, hg]
      · rw [ghostsOf_cons_neg known nb rest hc, ih _ hk]
        have hg : g ≠ nb := by
          rintro rfl
          rcases not_and_or.mp hc with h' | h'
          · exact hk (not_not.mp h')
          · exact hL (not_not.mp h')
        simp [List.mem_cons, hg]

theorem idEntries_topoNodes (t : ℚ) (nodes : List (String × NodeRecord)) (g : String)
    (hL : g ≠ "LOCAL") :
    ∀ known : List String, g ∉ nodes.map Prod.fst →
    idEntries (topoNodes t known nodes) g =
      if g ∈ known then []
      else if ∃ p ∈ nodes, g ∈ p.2.neighbors then [ghostEntry g] else [] := by
  induction nodes with
  | nil =>
      intro known _
      simp only [topoNodes, idEntries, List.filter_nil]
      split <;> simp
  | cons p rest ih =>
      intro known hf
      obtain ⟨nid, info⟩ := p
      simp only [List.map_cons, List.mem_cons, not_or] at hf
      have hid : ((knownEntry t nid info).id == g) = false := by
        rw [knownEntry_id]
        exact beq_eq_false_iff_ne.mpr fun h => hf.1 h.symm
      simp only [topoNodes, idEntries, List.filter_cons, hid, Bool.false_eq_true, if_false]
      rw [show (List.filter (fun n => n.id == g)
            (List.map ghostEntry (ghostsOf known info.neighbors)
              ++ topoNodes t (knownAfter known info.neighbors) rest))
          = idEntries (List.map ghostEntry (ghostsOf known info.neighbors)) g
            ++ idEntries (topoNodes t (knownAfter known info.neighbors) rest) g from by
        simp [idEntries, List.filter_append]]
      rw [idEntries_map_ghost]
      by_cases hk : g ∈ known
      · have h1 : g ∉ ghostsOf known info.neighbors := by
          rw [mem_ghostsOf]; rintro ⟨h, -, -⟩; exact h hk
        have h2 : g ∈ knownAfter known info.neighbors := (mem_knownAfter _ _ _).mpr (Or.inl hk)
        rw [filter_beq_nil _ _ h1, ih _ hf.2, if_pos h2, if_pos hk]
        rfl
      · by_cases hn : g ∈ info.neighbors
        · have h2 : g ∈ knownAfter known info.neighbors :=
            (mem_knownAfter _ _ _).mpr (Or.inr ⟨hn, hL⟩)
          rw [filterEq_ghostsOf g _ hL _ hk, if_pos hn, ih _ hf.2, if_pos h2, if_neg hk,
            if_pos ⟨(nid, info), List.mem_cons_self _ _, hn⟩]
          rfl
        · have h2 : g ∉ knownAfter known info.neighbors := by
            rw [mem_knownAfter]
            rintro (h | ⟨h, -⟩)
            · exact hk h
            · exact hn h
          rw [filterEq_ghostsOf g _ hL _ hk, if_neg hn, ih _ hf.2, if_neg h2, if_neg hk]
          have he : (∃ p ∈ rest, g ∈ p.2.neighbors) ↔
              (∃ p ∈ (nid, info) :: rest, g ∈ p.2.neighbors) := by
            constructor
            · rintro ⟨q, hq, hgq⟩
              exact ⟨q, List.mem_cons_of_mem _ hq, hgq⟩
            · rintro ⟨q, hq, hgq⟩
              rcases List.mem_cons.mp hq with rfl | hq'
              · exact absurd hgq hn
              · exact ⟨q, hq', hgq⟩
          rw [if_congr he rfl rfl]
          simp

theorem idEntries_topoNodes_nil (t : ℚ) (nodes : List (String × NodeRecord)) (g : String) :
    ∀ known : List String, g ∉ nodes.map Prod.fst → (g ∈ known ∨ g = "LOCAL") →
    idEntries (topoNodes t known nodes) g = [] := by
  induction nodes with
  | nil => intro known _ _; simp [topoNodes, idEntries]
  | cons p rest ih =>
      intro known hf hk
      obtain ⟨nid, info⟩ := p
      simp only [List.map_cons, List.mem_cons, not_or] at hf
      have hid : ((knownEntry t nid info).id == g) = false := by
        rw [knownEntry_id]
        exact beq_eq_false_iff_ne.mpr fun h => hf.1 h.symm
      have h1 : g ∉ ghostsOf known info.neighbors := by
        rw [mem_ghostsOf]
        rintro ⟨hgk, hgl, -⟩
        rcases hk with hk | hk
        · exact hgk hk
        · exact hgl hk
      have h2 : g ∈ knownAfter known info.neighbors ∨ g = "LOCAL" := by
        rcases hk with hk | hk
        · exact Or.inl ((mem_knownAfter _ _ _).mpr (Or.inl hk))
        · exact Or.inr hk
      simp only [topoNodes, idEntries, List.filter_cons, hid, Bool.false_eq_true, if_false,
        List.filter_append]
      rw [show List.filter (fun n => n.id == g) (List.map ghostEntry (ghostsOf known info.neighbors))
            = idEntries (List.map ghostEntry (ghostsOf known info.neighbors)) g from rfl]
      rw [idEntries_map_ghost, filter_beq_nil _ _ h1]
      exact ih _ hf.2 h2

theorem idEntries_topoNodes_known (t : ℚ) (nodes : List (String × NodeRecord))
    (nid : String) (info : NodeRecord) :
    ∀ known : List String, (nodes.map Prod.fst).Nodup → (nid, info) ∈ nodes → nid ∈ known →
    idEntries (topoNodes t known nodes) nid = [knownEntry t nid info] := by
  induction nodes with
  | nil => intro known _ hmem _; simp at hmem
  | cons p rest ih =>
      intro known hnd hmem hk
      obtain ⟨nid', info'⟩ := p
      simp only [List.map_cons, List.nodup_cons] at hnd
      have h1 : nid ∈ known → nid ∉ ghostsOf known info'.neighbors := by
        intro hk'
        rw [mem_ghostsOf]
        rintro ⟨hgk, -, -⟩
        exact hgk hk'
      by_cases he : nid' = nid
      · subst he
        have hinfo : info' = info := by
          rcases List.mem_cons.mp hmem with h | h
          · exact (congrArg Prod.snd h).symm
          · exact absurd (List.mem_map_of_mem Prod.fst h) hnd.1
        subst hinfo
        have hid : ((knownEntry t nid' info').id == nid') = true := by
          rw [knownEntry_id]; exact beq_self_eq_true _
        simp only [topoNodes, idEntries, List.filter_cons, hid, if_true, List.filter_append]
        rw [show List.filter (fun n => n.id == nid')
              (List.map ghostEntry (ghostsOf known info'.neighbors))
            = idEntries (List.map ghostEntry (ghostsOf known info'.neighbors)) nid' from rfl]
        rw [idEntries_map_ghost, filter_beq_nil _ _ (h1 hk)]
        rw [show List.filter (fun n => n.id == nid')
              (topoNodes t (knownAfter known info'.neighbors) rest)
            = idEntries (topoNodes t (knownAfter known info'.neighbors) rest) nid' from rfl]
        rw [idEntries_topoNodes_nil t rest nid' _ hnd.1
          (Or.inl ((mem_knownAfter _ _ _).mpr (Or.inl hk)))]
        simp
      · have hmem' : (nid, info) ∈ rest := by
          rcases List.mem_cons.mp hmem with h | h
          · exact absurd (congrArg Prod.fst h).symm he
          · exact h
        have hid : ((knownEntry t nid' info').id == nid) = false := by
          rw [knownEntry_id]
          exact beq_eq_false_iff_ne.mpr he
        simp only [topoNodes, idEntries, List.filter_cons, hid, Bool.false_eq_true, if_false,
          List.filter_append]
        rw [show List.filter (fun n => n.id == nid)
              (List.map ghostEntry (ghostsOf known info'.neighbors))
            = idEntries (List.map ghostEntry (ghostsOf known info'.neighbors)) nid from rfl]
        rw [idEntries_map_ghost, filter_beq_nil _ _ (h1 hk)]
        rw [show List.filter (fun n => n.id == nid)
              (topoNodes t (knownAfter known info'.neighbors) rest)
            = idEntries (topoNodes t (knownAfter known info'.neighbors) rest) nid from rfl]
        rw [ih _ hnd.2 hmem' ((mem_knownAfter _ _ _).mpr (Or.inl hk))]
        rfl

theorem target_ne_LOCAL_of_mem_topoLinks (nodes : List (String × NodeRecord)) (l : GLink)
    (h : l ∈ topoLinks nodes) : l.target ≠ "LOCAL" := by
  induction nodes with
  | nil => simp [topoLinks] at h
  | cons p rest ih =>
      obtain ⟨nid, info⟩ := p
      simp only [topoLinks, List.mem_append] at h
      rcases h with h | h
      · simp only [List.mem_map, List.mem_filter] at h
        obtain ⟨nb, ⟨-, hnb⟩, rfl⟩ := h
        simpa [linkEntry] using bne_iff_ne.mp hnb
      · exact ih h

theorem id_of_mem_topoNodes (t : ℚ) (nodes : List (String × NodeRecord)) :
    ∀ (known : List String) (n : GNode), n ∈ topoNodes t known nodes →
    n.id ∈ nodes.map Prod.fst ∨ n.id ≠ "LOCAL" := by
  induction nodes with
  | nil => intro known n h; simp [topoNodes] at h
  | cons p rest ih =>
      intro known n h
      obtain ⟨nid, info⟩ := p
      simp only [topoNodes, List.mem_cons, List.mem_append] at h
      rcases h with rfl | h | h
      · exact Or.inl (by simp [knownEntry_id])
      · simp only [List.mem_map] at h
        obtain ⟨x, hx, rfl⟩ := h
        exact Or.inr (by simpa [ghostEntry] using ((mem_ghostsOf _ _ _).mp hx).2.1)
      · rcases ih _ _ h with h' | h'
        · exact Or.inl (by simp [h'])
        · exact Or.inr h'

/-! The claims. -/

/-- Claim C1: for every node identifier `A` (a directly addressable id, i.e.
not the reserved broadcast sentinel) and every sequence of `queue_command A c`
calls since the last drain, `get_commands A` returns exactly those commands in
enqueue (FIFO) order and leaves `A`'s queue empty, so a second immediate
`get_commands A` returns the empty sequence. -/
theorem claim1_queue_drain_exact (s : NMState) (A : String) (cs : List String)
    (hA : A ≠ "BROADCAST") :
    (get_commands (cs.foldl (fun u c => queue_command u A c) (get_commands s A).2) A).1 = cs
    ∧ pendingOf
        (get_commands (cs.foldl (fun u c => queue_command u A c) (get_commands s A).2) A).2 A = []
    ∧ (get_commands
        (get_commands (cs.foldl (fun u c => queue_command u A c) (get_commands s A).2) A).2
        A).1 = [] := by
  have h1 : pendingOf (cs.foldl (fun u c => queue_command u A c) (get_commands s A).2) A = cs := by
    rw [pendingOf_foldl_enqueue _ _ _ hA, pendingOf_get_commands_snd]
    simp
  exact ⟨h1, pendingOf_get_commands_snd _ _, pendingOf_get_commands_snd _ _⟩

/-- Claim C1 witness at a concrete input. -/
theorem claim1_queue_drain_exact_witness :
    (get_commands (["c1", "c2"].foldl (fun u c => queue_command u "A" c)
      (get_commands initState "A").2) "A").1 = ["c1", "c2"]
    ∧ (get_commands (get_commands (["c1", "c2"].foldl (fun u c => queue_command u "A" c)
        (get_commands initState "A").2) "A").2 "A").1 = [] := by
  have h := claim1_queue_drain_exact initState "A" ["c1", "c2"] (by decide)
  exact ⟨h.1, h.2.2⟩

/-- Claim C2: broadcast enqueue appends the command to the queue of every node
id present in the store at enqueue time and only those; a node `C` first
reported via `update_node` after the broadcast does not receive it — its
subsequent `get_commands` returns the empty sequence. -/
theorem claim2_broadcast_snapshot (s : NMState) (x : String)
    (hnd : (dkeys s.nodes).Nodup) :
    (∀ nid ∈ dkeys s.nodes,
        pendingOf (queue_command s "BROADCAST" x) nid = pendingOf s nid ++ [x])
    ∧ (∀ nid, nid ∉ dkeys s.nodes →
        pendingOf (queue_command s "BROADCAST" x) nid = pendingOf s nid)
    ∧ (∀ (C : String) (t : ℚ) (data : Report), C ∉ dkeys s.nodes → pendingOf s C = [] →
        (get_commands (update_node (queue_command s "BROADCAST" x) t C data) C).1 = []) := by
  have hq : (queue_command s "BROADCAST" x).pending_commands
      = s.nodes.foldl (fun pc p => dictPush pc p.1 x) s.pending_commands := by
    simp [queue_command]
  refine ⟨?_, ?_, ?_⟩
  · intro nid hmem
    show dictGet (queue_command s "BROADCAST" x).pending_commands nid [] = _
    rw [hq]
    exact foldl_dictPush_mem _ _ _ _ hnd hmem
  · intro nid hmem
    show dictGet (queue_command s "BROADCAST" x).pending_commands nid [] = _
    rw [hq]
    exact foldl_dictPush_not_mem _ _ _ _ _ hmem
  · intro C t data hC hpc
    show pendingOf (update_node (queue_command s "BROADCAST" x) t C data) C = []
    rw [pendingOf_update_node]
    show dictGet (queue_command s "BROADCAST" x).pending_commands C [] = []
    rw [hq, foldl_dictPush_not_mem _ _ _ _ _ hC]
    exact hpc

/-- Claim C2 witness: known nodes `A`, `B`, unknown `C`; after
`queue_command "BROADCAST" "x"` then `update_node "C"`, `get_commands "C"`
is empty while `A`'s and `B`'s queues got `"x"`. -/
theorem claim2_broadcast_snapshot_witness :
    pendingOf (queue_command stateAB "BROADCAST" "x") "A" = ["x"]
    ∧ pendingOf (queue_command stateAB "BROADCAST" "x") "B" = ["x"]
    ∧ (get_commands (update_node (queue_command stateAB "BROADCAST" "x") 1 "C" reportEmpty)
        "C").1 = [] := by
  have h := claim2_broadcast_snapshot stateAB "x" (by decide)
  refine ⟨?_, ?_, h.2.2 "C" 1 reportEmpty (by decide) (by decide)⟩
  · rw [h.1 "A" (by decide)]; decide
  · rw [h.1 "B" (by decide)]; decide

/-- Claim C3: a second `update_node` for the same id replaces the record
wholesale: the two-call sequence yields the very same state as the single
second call, and the stored entry is exactly the record built from the second
report alone. -/
theorem claim3_wholesale_overwrite (s : NMState) (t₁ t₂ : ℚ) (A : String) (R₁ R₂ : Report) :
    update_node (update_node s t₁ A R₁) t₂ A R₂ = update_node s t₂ A R₂
    ∧ dictFind (update_node (update_node s t₁ A R₁) t₂ A R₂).nodes A
        = some (mkRecord t₂ R₂) := by
  have hstate : update_node (update_node s t₁ A R₁) t₂ A R₂ = update_node s t₂ A R₂ := by
    simp only [update_node, dictSet_dictSet_self, NMState.mk.injEq, true_and]
    by_cases h : dictContains s.pending_commands A
    · simp [h]
    · simp [h, dictContains_append_single_self]
  refine ⟨hstate, ?_⟩
  rw [hstate]
  show dictFind (dictSet s.nodes A (mkRecord t₂ R₂)) A = _
  exact dictFind_dictSet_self _ _ _

/-- Claim C4: a neighbor id `g` listed by some known node, absent from the
store and distinct from the self-reference marker yields exactly one ghost
entry (with the unknown/offline tag) in the built graph, however many nodes
list it; the build leaves the state unchanged, so a rebuild over the same
store produces the ghost afresh. -/
theorem claim4_ghost_emergence (s : NMState) (t t' : ℚ) (g : String)
    (hf : g ∉ dkeys s.nodes) (hL : g ≠ "LOCAL")
    (hlisted : ∃ p ∈ s.nodes, g ∈ p.2.neighbors) :
    idEntries (get_topology s t).1.1 g = [ghostEntry g]
    ∧ (get_topology s t).2 = s
    ∧ idEntries (get_topology (get_topology s t).2 t').1.1 g = [ghostEntry g] := by
  have key : ∀ u : ℚ, idEntries (get_topology s u).1.1 g = [ghostEntry g] := by
    intro u
    rw [get_topology_eq]
    show idEntries (topoNodes u (dkeys s.nodes) s.nodes) g = _
    rw [idEntries_topoNodes u s.nodes g hL _ hf, if_neg hf, if_pos hlisted]
  exact ⟨key t, rfl, key t'⟩

/-- Claim C4 witness: `A` reports neighbors `["B"]`, `B` never reported:
the build has exactly one node entry for `B` (ghost-tagged) and exactly one
directed link from `A` to `B`. -/
theorem claim4_ghost_emergence_witness :
    idEntries (get_topology stateA 1).1.1 "B" = [ghostEntry "B"]
    ∧ (get_topology stateA 1).1.2 = [linkEntry "A" "B"] := by
  refine ⟨(claim4_ghost_emergence stateA 1 1 "B" (by decide) (by decide)
    ⟨("A", mkRecord 0 reportNbrB), by decide, by decide⟩).1, ?_⟩
  rw [get_topology_eq]
  decide

/-- Claim C5: in a build at reference time `t`, the unique graph entry of a
known node is its `knownEntry`, which is the active-weight/active-color entry
exactly when `t - last_seen < 5.0` and the inactive one otherwise; the same
reference time `t` classifies every node of the build. -/
theorem claim5_activity_classification (s : NMState) (t : ℚ) (nid : String)
    (info : NodeRecord) (hnd : (dkeys s.nodes).Nodup) (hmem : (nid, info) ∈ s.nodes) :
    idEntries (get_topology s t).1.1 nid = [knownEntry t nid info]
    ∧ (t - info.last_seen < 5 → knownEntry t nid info = ⟨nid, nid, 10, "#4CAF50"⟩)
    ∧ (¬ t - info.last_seen < 5 → knownEntry t nid info = ⟨nid, nid, 5, "#9E9E9E"⟩) := by
  refine ⟨?_, fun h => by simp [knownEntry, h], fun h => by simp [knownEntry, h]⟩
  rw [get_topology_eq]
  exact idEntries_topoNodes_known t s.nodes nid info _ hnd hmem
    (List.mem_map_of_mem Prod.fst hmem)

/-- Claim C5 witness: at reference time `51/10`, node `A` (last seen `1/5`,
hence `4.9` seconds old) is emitted active and node `B` (last seen `0`, hence
`5.1` seconds old) inactive. -/
theorem claim5_activity_classification_witness :
    idEntries (get_topology stateTimes (51/10)).1.1 "A" = [⟨"A", "A", 10, "#4CAF50"⟩]
    ∧ idEntries (get_topology stateTimes (51/10)).1.1 "B" = [⟨"B", "B", 5, "#9E9E9E"⟩] := by
  have hA := claim5_activity_classification stateTimes (51/10) "A" (mkRecord (1/5) reportEmpty)
    (by decide) (by simp [stateTimes, update_node, initState, dictSet])
  have hB := claim5_activity_classification stateTimes (51/10) "B" (mkRecord 0 reportEmpty)
    (by decide) (by simp [stateTimes, update_node, initState, dictSet])
  constructor
  · rw [hA.1, hA.2.1 (by norm_num [mkRecord, reportEmpty])]
  · rw [hB.1, hB.2.2 (by norm_num [mkRecord, reportEmpty])]

/-- Claim C6: the reserved marker `"LOCAL"` in a neighbor list yields neither
a ghost entry nor a link: no emitted link targets `"LOCAL"`, and an emitted
node entry can carry id `"LOCAL"` only if `"LOCAL"` is itself a stored node
identifier. -/
theorem claim6_marker_exclusion (s : NMState) (t : ℚ) :
    (∀ l ∈ (get_topology s t).1.2, l.target ≠ "LOCAL")
    ∧ (∀ n ∈ (get_topology s t).1.1, n.id = "LOCAL" → "LOCAL" ∈ dkeys s.nodes) := by
  rw [get_topology_eq]
  refine ⟨?_, ?_⟩
  · intro l hl
    exact target_ne_LOCAL_of_mem_topoLinks _ _ hl
  · intro n hn hid
    rcases id_of_mem_topoNodes t s.nodes _ n hn with h | h
    · rw [← hid]; exact h
    · exact absurd hid h

/-- Claim C6 witness: `A` reports neighbors `["LOCAL", "B"]`; the build emits
only the link to `B`, and no node entry with id `"LOCAL"`. -/
theorem claim6_marker_exclusion_witness :
    (linkEntry "A" "B").target ≠ "LOCAL"
    ∧ (get_topology stateLocal 1).1.2 = [linkEntry "A" "B"]
    ∧ idEntries (get_topology stateLocal 1).1.1 "LOCAL" = [] := by
  refine ⟨(claim6_marker_exclusion stateLocal 1).1 (linkEntry "A" "B")
    (by rw [get_topology_eq]; decide), by rw [get_topology_eq]; decide, ?_⟩
  rw [get_topology_eq]
  show idEntries (topoNodes 1 (dkeys stateLocal.nodes) stateLocal.nodes) "LOCAL" = []
  rw [idEntries_topoNodes_nil 1 stateLocal.nodes "LOCAL" _ (by decide) (Or.inr rfl)]

/-- Claim C7 counterexample: `get_node_details` returns the stored record
dict (keys `last_seen`, `routing_table`, `neighbors`, `ip`, `details`), not
the raw report payload itself: after reporting the empty payload `{}` for
`"A"`, the value returned for `"A"` is a five-key dict, not `{}`. -/
theorem claim7_counterexample :
    ¬ detailsPy (get_node_details (update_node initState 0 "A" reportEmpty) "A").1
      = Report.toPy reportEmpty := by
  intro h
  simp [detailsPy, get_node_details, update_node, initState, dictSet, dictFind, dictContains,
    mkRecord, reportEmpty, NodeRecord.toPy, Report.toPy] at h

/-- Claim C7 as amended: `get_node_details X` returns the stored node record
for `X` — whose `details` field is exactly the raw payload of the most recent
`update_node X` call — when `X` is known, and the empty result (never an
error) when `X` has never been reported; the call leaves the state
unchanged. -/
theorem claim7_detail_lookup (s : NMState) (t : ℚ) (X : String) (R : Report) :
    (get_node_details (update_node s t X R) X).1 = some (mkRecord t R)
    ∧ (mkRecord t R).details = R
    ∧ (∀ Y, Y ∉ dkeys s.nodes → (get_node_details s Y).1 = none)
    ∧ (get_node_details s X).2 = s := by
  refine ⟨?_, rfl, ?_, rfl⟩
  · show dictFind (dictSet s.nodes X (mkRecord t R)) X = _
    exact dictFind_dictSet_self _ _ _
  · intro Y hY
    exact dictFind_of_not_mem _ _ hY

/-- Claim C7 witness at a concrete input. -/
theorem claim7_detail_lookup_witness :
    (get_node_details (update_node initState 0 "A" reportEmpty) "A").1
      = some (mkRecord 0 reportEmpty)
    ∧ (get_node_details initState "Z").1 = none := by
  exact ⟨(claim7_detail_lookup initState 0 "A" reportEmpty).1,
    (claim7_detail_lookup initState 0 "A" reportEmpty).2.2.1 "Z" (by decide)⟩

/-- Claim C8: `update_node X` leaves a command queue for `X` in place — it
creates an empty one when none existed and never changes the pending commands
of any node; in particular commands enqueued for `X` before its first report
are still delivered by a later `get_commands X`. -/
theorem claim8_update_queue_side_effect (s : NMState) (t : ℚ) (X : String) (R : Report) :
    dictContains (update_node s t X R).pending_commands X = true
    ∧ (∀ Y, pendingOf (update_node s t X R) Y = pendingOf s Y)
    ∧ (∀ c, X ≠ "BROADCAST" →
        (get_commands (update_node (queue_command s X c) t X R) X).1
          = pendingOf s X ++ [c]) := by
  refine ⟨?_, fun Y => pendingOf_update_node s t X Y R, ?_⟩
  · show dictContains (if dictContains s.pending_commands X then s.pending_commands
      else s.pending_commands ++ [(X, [])]) X = true
    by_cases h : dictContains s.pending_commands X
    · simp [h]
    · simp only [h, Bool.false_eq_true, if_false]
      exact dictContains_append_single_self _ _ _
  · intro c hX
    show pendingOf (update_node (queue_command s X c) t X R) X = _
    rw [pendingOf_update_node, pendingOf_queue_command_self _ _ _ hX]

/-- Claim C8 witness: a command queued for `"A"` before its first report is
still returned by `get_commands "A"` after the report. -/
theorem claim8_update_queue_side_effect_witness :
    dictContains (update_node initState 0 "A" reportEmpty).pending_commands "A" = true
    ∧ (get_commands (update_node (queue_command initState "A" "go") 0 "A" reportEmpty)
        "A").1 = pendingOf initState "A" ++ ["go"] := by
  exact ⟨(claim8_update_queue_side_effect initState 0 "A" reportEmpty).1,
    (claim8_update_queue_side_effect initState 0 "A" reportEmpty).2.2 "go" (by decide)⟩

/-- Claim C9: `get_topology` mutates neither the node store nor any command
queue, and the graph it returns depends only on the store contents and the
reference time. -/
theorem claim9_topology_purity (s s' : NMState) (t : ℚ) (h : s.nodes = s'.nodes) :
    (get_topology s t).2 = s
    ∧ (get_topology s t).1 = (get_topology s' t).1 := by
  refine ⟨rfl, ?_⟩
  rw [get_topology_eq, get_topology_eq, h]

/-- Claim C9 witness at a concrete input. -/
theorem claim9_topology_purity_witness :
    (get_topology stateA 1).2 = stateA
    ∧ (get_topology stateA 1).1
        = (get_topology ⟨stateA.nodes, [("Q", ["cmd"])]⟩ 1).1 := by
  exact claim9_topology_purity stateA ⟨stateA.nodes, [("Q", ["cmd"])]⟩ 1 rfl

/-- Claim C10: `queue_command "BROADCAST" c` always takes the fan-out branch:
with an empty store it changes nothing, it never directly appends to a queue
keyed `"BROADCAST"` when no stored node has that name, and a stored node
literally named `"BROADCAST"` receives the command only through fan-out. -/
theorem claim10_broadcast_sentinel_shadowing (s : NMState) (c : String) :
    (s.nodes = [] → queue_command s "BROADCAST" c = s)
    ∧ ("BROADCAST" ∉ dkeys s.nodes →
        pendingOf (queue_command s "BROADCAST" c) "BROADCAST" = pendingOf s "BROADCAST")
    ∧ ((dkeys s.nodes).Nodup → "BROADCAST" ∈ dkeys s.nodes →
        pendingOf (queue_command s "BROADCAST" c) "BROADCAST"
          = pendingOf s "BROADCAST" ++ [c]) := by
  have hq : (queue_command s "BROADCAST" c).pending_commands
      = s.nodes.foldl (fun pc p => dictPush pc p.1 c) s.pending_commands := by
    simp [queue_command]
  refine ⟨?_, ?_, ?_⟩
  · intro h
    obtain ⟨nodes, pc⟩ := s
    simp only at h
    subst h
    simp [queue_command]
  · intro h
    show dictGet (queue_command s "BROADCAST" c).pending_commands "BROADCAST" [] = _
    rw [hq]
    exact foldl_dictPush_not_mem _ _ _ _ _ h
  · intro hnd hmem
    show dictGet (queue_command s "BROADCAST" c).pending_commands "BROADCAST" [] = _
    rw [hq]
    exact foldl_dictPush_mem _ _ _ _ hnd hmem

/-- Claim C10 witness: with an empty store the broadcast enqueues nothing;
with a stored node named `"BROADCAST"` the command arrives via fan-out. -/
theorem claim10_broadcast_sentinel_shadowing_witness :
    queue_command initState "BROADCAST" "x" = initState
    ∧ pendingOf (queue_command stateA "BROADCAST" "x") "BROADCAST"
        = pendingOf stateA "BROADCAST"
    ∧ pendingOf (queue_command stateBC "BROADCAST" "x") "BROADCAST"
        = pendingOf stateBC "BROADCAST" ++ ["x"] := by
  exact ⟨(claim10_broadcast_sentinel_shadowing initState "x").1 rfl,
    (claim10_broadcast_sentinel_shadowing stateA "x").2.1 (by decide),
    (claim10_broadcast_sentinel_shadowing stateBC "x").2.2 (by decide) (by decide)⟩

end NetMgr
